import Mathlib

/-!
# Verification of the PVG pipeline (`openhsv/analysis/pvg.py`)

Shallow embedding of the Phonovibrogram pipeline:

* `_find_orthogonal_points` : orthogonal sampling lines from the AP axis
  (`findOrthogonalPoints`, over the reals);
* `_create_maps` : signed distance rasters (`createMaps`, modelled as the
  literal triple loop, i.e. a fold of single-cell writes over the index
  space, starting from the `np.zeros` array);
* `_find_parts` : the per-pixel classifier (`findParts`).  The original
  stores into a NumPy `int8` array under a Numba-compiled loop, so the
  stored label is the C-style wraparound of `sign * (closest + 1)` into
  `[-128, 127]`; this is modelled exactly by `wrap8`.  `np.argmin` returns
  the first index attaining the minimum, modelled by `argminAbs`
  (note `np.sqrt (v ** 2) = |v|` exactly, see `sqrtSq_eq_abs`);
* `get_labels` : the composed pipeline (`get_labelsE`); fallible paths
  (`np.linspace` with a negative sample count, `np.argmin` over an empty
  axis) are modelled with `Except`;
* `compute_pvg` : per-frame histogram aggregation (`computePvg`), with the
  bin-label vector `all_steps` built by the same slice assignments as the
  source (`allSteps`).

Float arrays are modelled with exact arithmetic (a general linearly
ordered ring, instantiated at `ℝ` for the trigonometric geometry and at
`ℤ` for executable witnesses); integer dtypes are modelled with their
exact wraparound semantics.
-/

namespace OpenHSV

/-- Wraparound of an integer into the signed 8-bit range `[-128, 127]`,
modelling a store into a NumPy `int8` array under Numba's C-like cast
(`labels = np.zeros(im_shape, dtype=np.int8)` in `_find_parts`). -/
def wrap8 (z : ℤ) : ℤ := (z + 128) % 256 - 128

theorem wrap8_range (z : ℤ) : -128 ≤ wrap8 z ∧ wrap8 z ≤ 127 := by
  unfold wrap8; omega

/-- Values that already fit in `int8` are stored unchanged. -/
theorem wrap8_small {z : ℤ} (h1 : -128 ≤ z) (h2 : z ≤ 127) : wrap8 z = z := by
  unfold wrap8; omega

/-- A label of intended magnitude `1 ≤ m ≤ 255` (either sign) is stored as a
nonzero `int8` value of magnitude at most `m`. -/
theorem wrap8_sign_bound {s m : ℤ} (hs : s = 1 ∨ s = -1) (h1 : 1 ≤ m) (h2 : m ≤ 255) :
    wrap8 (s * m) ≠ 0 ∧ 1 ≤ (wrap8 (s * m)).natAbs ∧ ((wrap8 (s * m)).natAbs : ℤ) ≤ m := by
  rcases hs with rfl | rfl <;> simp only [one_mul, neg_one_mul] <;> unfold wrap8 <;> omega

/-- `np.linspace a b n` : `n` evenly spaced samples from `a` to `b`
(inclusive).  For `n = 1` NumPy returns the single value `a`.
Out-of-range indices are junk (never read by the pipeline). -/
def linspace {α : Type} [Field α] (a b : α) (n : ℕ) : ℕ → α :=
  fun k => if n = 1 then a else a + (k : α) * (b - a) / ((n : α) - 1)

/-- `_find_orthogonal_points`: returns `(xs, ys, coef_orth, intercepts_orth)`.
`xs = np.linspace(x_low, x_high, steps)` (the commented-out `[1:-1]` in the
source is not applied), `ys = coef * xs + intercept`,
`coef_orth = tan(arctan coef - pi/2)`, `intercepts_orth = ys - coef_orth * xs`. -/
noncomputable def findOrthogonalPoints (x_low x_high coef intercept : ℝ) (steps : ℕ) :
    (ℕ → ℝ) × (ℕ → ℝ) × ℝ × (ℕ → ℝ) :=
  let xs := linspace x_low x_high steps
  let ys := fun k => coef * xs k + intercept
  let coef_orth := Real.tan (Real.arctan coef - Real.pi / 2)
  (xs, ys, coef_orth, fun k => ys k - coef_orth * xs k)

/-- `np.sqrt (v ** 2)` is exactly `|v|`; the classifier's
`np.argmin(np.sqrt(labels_parallel[:, i, j] ** 2))` is therefore the argmin
of the absolute distances, which `argminAbs` below uses directly. -/
theorem sqrtSq_eq_abs (v : ℝ) : Real.sqrt (v ^ 2) = |v| := Real.sqrt_sq_eq_abs v

/-- The row-major index list `[(j, y, x) | j < K, y < H, x < W]` walked by the
triple loop in `_create_maps`. -/
def triples (K H W : ℕ) : List (ℕ × ℕ × ℕ) :=
  (List.range K).flatMap fun j =>
    (List.range H).flatMap fun y =>
      (List.range W).map fun x => (j, y, x)

theorem mem_triples {K H W j y x : ℕ} :
    (j, y, x) ∈ triples K H W ↔ j < K ∧ y < H ∧ x < W := by
  simp only [triples, List.mem_flatMap, List.mem_map, List.mem_range, Prod.mk.injEq]
  constructor
  · rintro ⟨a, ha, b, hb, c, hc, rfl, rfl, rfl⟩
    exact ⟨ha, hb, hc⟩
  · rintro ⟨hj, hy, hx⟩
    exact ⟨j, hj, y, hy, x, hx, rfl, rfl, rfl⟩

/-- One fold of single-cell writes, as left by a loop that stores `g p` into
cell `p`: the generic shape of the `_create_maps` loop body. -/
theorem foldl_update_eq {α β : Type} [DecidableEq β] (g : β → α) :
    ∀ (l : List β) (A : β → α) (q : β),
      (l.foldl (fun A p => Function.update A p (g p)) A) q
        = if q ∈ l then g q else A q := by
  intro l
  induction l with
  | nil => intro A q; simp
  | cons p l ih =>
    intro A q
    simp only [List.foldl_cons, ih, List.mem_cons]
    by_cases hq : q ∈ l
    · simp [hq]
    · by_cases hpq : q = p
      · subst hpq; simp [hq]
      · simp [hq, hpq, Function.update_noteq hpq]

/-- `_create_maps` as the literal loop: start from `np.zeros` and store
`y - (c * x + i[j])` into every cell `(j, y, x)` of the stack, flattened
over the row-major index list. -/
def createMapsFlat {α : Type} [LinearOrderedRing α] (K H W : ℕ) (c : α) (i : ℕ → α) :
    ℕ × ℕ × ℕ → α :=
  (triples K H W).foldl
    (fun A p => Function.update A p ((p.2.1 : α) - (c * (p.2.2 : α) + i p.1)))
    (fun _ => 0)

/-- `_create_maps(im_shape, c, i)` viewed as a stack of 2D arrays:
`createMaps K H W c i j y x` is cell `(y, x)` of the `j`-th distance map. -/
def createMaps {α : Type} [LinearOrderedRing α] (K H W : ℕ) (c : α) (i : ℕ → α) :
    ℕ → ℕ → ℕ → α :=
  fun j y x => createMapsFlat K H W c i (j, y, x)

theorem createMaps_apply {α : Type} [LinearOrderedRing α] {K H W : ℕ} (c : α) (i : ℕ → α)
    {j y x : ℕ} (hj : j < K) (hy : y < H) (hx : x < W) :
    createMaps K H W c i j y x = (y : α) - (c * (x : α) + i j) := by
  unfold createMaps createMapsFlat
  rw [foldl_update_eq (fun p : ℕ × ℕ × ℕ => ((p.2.1 : α) - (c * (p.2.2 : α) + i p.1)))]
  rw [if_pos (mem_triples.mpr ⟨hj, hy, hx⟩)]

/-- Cells outside the image grid do not exist in the NumPy array; the model
leaves them at the `np.zeros` initial value. -/
theorem createMaps_out {α : Type} [LinearOrderedRing α] {K H W : ℕ} (c : α) (i : ℕ → α)
    {j y x : ℕ} (h : ¬(j < K ∧ y < H ∧ x < W)) :
    createMaps K H W c i j y x = 0 := by
  unfold createMaps createMapsFlat
  rw [foldl_update_eq (fun p : ℕ × ℕ × ℕ => ((p.2.1 : α) - (c * (p.2.2 : α) + i p.1)))]
  rw [if_neg (fun hm => h (mem_triples.mp hm))]

/-- `np.argmin` of the absolute values of `f 0, …, f (K-1)`: the first index
attaining the minimum (NumPy returns the first occurrence on ties). -/
def argminAbs {α : Type} [LinearOrderedRing α] (f : ℕ → α) (K : ℕ) : ℕ :=
  (List.range K).foldl (fun best k => if |f k| < |f best| then k else best) 0

theorem argminAbs_one {α : Type} [LinearOrderedRing α] (f : ℕ → α) :
    argminAbs f 1 = 0 := by
  unfold argminAbs
  simp [List.range_succ]

theorem argminAbs_succ {α : Type} [LinearOrderedRing α] (f : ℕ → α) (K : ℕ) :
    argminAbs f (K + 1)
      = if |f K| < |f (argminAbs f K)| then K else argminAbs f K := by
  unfold argminAbs
  rw [List.range_succ, List.foldl_append]
  rfl

/-- Specification of NumPy's tie-breaking argmin over `|f ·|`:
`j` is in range, attains the minimum, and every earlier index is
strictly worse. -/
def IsFirstArgminAbs {α : Type} [LinearOrderedRing α] (f : ℕ → α) (K j : ℕ) : Prop :=
  j < K ∧ (∀ i, i < K → |f j| ≤ |f i|) ∧ (∀ i, i < j → |f j| < |f i|)

theorem argminAbs_spec {α : Type} [LinearOrderedRing α] (f : ℕ → α) :
    ∀ K : ℕ, 0 < K → IsFirstArgminAbs f K (argminAbs f K) := by
  intro K
  induction K with
  | zero => intro h; omega
  | succ K ih =>
    intro _
    rcases Nat.eq_zero_or_pos K with h0 | hpos
    · subst h0
      refine ⟨by rw [argminAbs_one]; exact Nat.zero_lt_succ 0, ?_, ?_⟩
      · intro i hi
        have : i = 0 := by omega
        subst this
        rw [argminAbs_one]
      · intro i hi
        rw [argminAbs_one] at hi
        omega
    · obtain ⟨hlt, hmin, hstrict⟩ := ih hpos
      rw [argminAbs_succ]
      by_cases hc : |f K| < |f (argminAbs f K)|
      · rw [if_pos hc]
        refine ⟨Nat.lt_succ_self K, ?_, ?_⟩
        · intro i hi
          rcases Nat.lt_succ_iff_lt_or_eq.mp hi with hi' | rfl
          · exact le_trans (le_of_lt hc) (hmin i hi')
          · exact le_refl _
        · intro i hi
          exact lt_of_lt_of_le hc (hmin i hi)
      · rw [if_neg hc]
        refine ⟨Nat.lt_succ_of_lt hlt, ?_, hstrict⟩
        intro i hi
        rcases Nat.lt_succ_iff_lt_or_eq.mp hi with hi' | rfl
        · exact hmin i hi'
        · exact le_of_not_lt hc

theorem argminAbs_lt {α : Type} [LinearOrderedRing α] (f : ℕ → α) {K : ℕ} (hK : 0 < K) :
    argminAbs f K < K :=
  (argminAbs_spec f K hK).1

/-- The tie-breaking argmin specification pins the index down uniquely, so
any index satisfying it is the one the fold computes. -/
theorem argminAbs_eq_of {α : Type} [LinearOrderedRing α] {f : ℕ → α} {K j : ℕ}
    (h : IsFirstArgminAbs f K j) : argminAbs f K = j := by
  obtain ⟨hj, hmin, hstrict⟩ := h
  have hK : 0 < K := Nat.pos_of_ne_zero (by omega)
  obtain ⟨ha, hamin, hastrict⟩ := argminAbs_spec f K hK
  rcases lt_trichotomy (argminAbs f K) j with h1 | h2 | h3
  · have hj1 := hstrict _ h1
    have hj2 := hamin j hj
    exact absurd hj1 (not_lt.mpr hj2)
  · exact h2
  · have hj1 := hastrict _ h3
    have hj2 := hmin _ ha
    exact absurd hj1 (not_lt.mpr hj2)

/-- `_find_parts(im_shape, labels_parallel, labels_LR)`.  For each pixel the
sign is `+1` iff `labels_LR[i, j] >= 0` (else `-1`), `closest_to` is the
first argmin of the absolute orthogonal distances, and
`sign * (closest_to + 1)` is stored into an `int8` array (hence `wrap8`).
`np.argmin` over an empty axis (`K = 0`, reached when the image grid is
nonempty) raises `ValueError`, modelled by the `Except.error` branch.
Cells outside the grid keep the `np.zeros` value `0`. -/
def findParts {α : Type} [LinearOrderedRing α] (H W K : ℕ)
    (par : ℕ → ℕ → ℕ → α) (lr : ℕ → ℕ → α) : Except String (ℕ → ℕ → ℤ) :=
  if K = 0 ∧ 0 < H ∧ 0 < W then
    .error "attempt to get argmin of an empty sequence"
  else
    .ok fun y x =>
      if y < H ∧ x < W then
        wrap8 ((if 0 ≤ lr y x then 1 else -1)
          * ((argminAbs (fun k => par k y x) K : ℤ) + 1))
      else 0

/-- Reads cell `(y, x)` of the label map of a fallible pipeline result;
`none` when the pipeline raised. -/
def labelAt (e : Except String (ℕ → ℕ → ℤ)) (y x : ℕ) : Option ℤ :=
  e.toOption.map fun f => f y x

theorem labelAt_findParts {α : Type} [LinearOrderedRing α] {H W K : ℕ}
    (par : ℕ → ℕ → ℕ → α) (lr : ℕ → ℕ → α) (hK : 0 < K) {y x : ℕ}
    (hy : y < H) (hx : x < W) :
    labelAt (findParts H W K par lr) y x
      = some (wrap8 ((if 0 ≤ lr y x then 1 else -1)
          * ((argminAbs (fun k => par k y x) K : ℤ) + 1))) := by
  unfold findParts labelAt
  rw [if_neg (by omega)]
  simp [Except.toOption, hy, hx]

/-- `get_labels(x_low, x_high, coef, intercept, image_shape, steps)`.
`np.linspace` with a negative sample count raises `ValueError`; otherwise the
orthogonal distance stack and the left/right map are built with
`_create_maps` and classified with `_find_parts`. -/
noncomputable def get_labelsE (x_low x_high coef intercept : ℝ) (H W : ℕ) (steps : ℤ) :
    Except String (ℕ → ℕ → ℤ) :=
  if steps < 0 then .error "Number of samples must be non-negative"
  else
    findParts H W steps.toNat
      (createMaps steps.toNat H W
        (findOrthogonalPoints x_low x_high coef intercept steps.toNat).2.2.1
        (findOrthogonalPoints x_low x_high coef intercept steps.toNat).2.2.2)
      (fun y x => createMaps 1 H W coef (fun _ => intercept) 0 y x)

/-- The bin-label vector of `compute_pvg`, built exactly as in the source:
`all_steps = np.arange(1, steps*2+1)`, then
`all_steps[:steps] = all_steps[:steps][::-1]`, then
`all_steps[steps:] = -(all_steps[steps:] - steps)`. -/
def allSteps (steps : ℕ) : ℕ → ℤ :=
  let a0 : ℕ → ℤ := fun b => (b : ℤ) + 1
  let a1 : ℕ → ℤ := fun b => if b < steps then a0 (steps - 1 - b) else a0 b
  fun b => if steps ≤ b ∧ b < 2 * steps then -(a1 b - (steps : ℤ)) else a1 b

/-- Positive-side bins `0 ≤ b < steps` carry the descending labels
`steps, steps-1, …, 1`. -/
theorem allSteps_lo {steps b : ℕ} (hb : b < steps) :
    allSteps steps b = (steps : ℤ) - (b : ℤ) := by
  unfold allSteps
  simp only
  rw [if_neg (by omega), if_pos hb]
  omega

/-- Negative-side bins `steps ≤ b < 2*steps` carry the labels
`-1, -2, …, -steps`. -/
theorem allSteps_hi {steps b : ℕ} (h1 : steps ≤ b) (h2 : b < 2 * steps) :
    allSteps steps b = -((b : ℤ) - (steps : ℤ) + 1) := by
  unfold allSteps
  simp only
  rw [if_pos ⟨h1, h2⟩, if_neg (by omega)]
  omega

/-- The row-major pixel list `[(y, x) | y < H, x < W]` of one frame. -/
def pixPairs (H W : ℕ) : List (ℕ × ℕ) :=
  (List.range H).flatMap fun y => (List.range W).map fun x => (y, x)

theorem mem_pixPairs {H W : ℕ} {p : ℕ × ℕ} :
    p ∈ pixPairs H W ↔ p.1 < H ∧ p.2 < W := by
  rcases p with ⟨y, x⟩
  simp only [pixPairs, List.mem_flatMap, List.mem_map, List.mem_range, Prod.mk.injEq]
  constructor
  · rintro ⟨a, ha, b, hb, rfl, rfl⟩
    exact ⟨ha, hb⟩
  · rintro ⟨hy, hx⟩
    exact ⟨y, hy, x, hx, rfl, rfl⟩

/-- `segmentation.sum()` over one boolean frame: the number of true pixels. -/
def popcount (H W : ℕ) (f : ℕ → ℕ → Bool) : ℕ :=
  (pixPairs H W).countP fun p => f p.1 p.2

/-- `compute_pvg(s, labels, steps)`: entry `(t, b)` of the `T × 2*steps` PVG
matrix is `(s[t] & (labels[t] == all_steps[b])).sum()`.  The boolean scratch
stack `l` is fully overwritten for every frame before it is read, so the
per-frame recomputation is exact.  Entries outside the matrix shape are 0. -/
def computePvg (T H W steps : ℕ) (s : ℕ → ℕ → ℕ → Bool)
    (labels : ℕ → ℕ → ℕ → ℤ) : ℕ → ℕ → ℕ :=
  fun t b =>
    if t < T ∧ b < 2 * steps then
      (pixPairs H W).countP fun p =>
        s t p.1 p.2 && decide (labels t p.1 p.2 = allSteps steps b)
    else 0

theorem countP_range (q : ℕ → Bool) :
    ∀ n : ℕ, (List.range n).countP q = ∑ x ∈ Finset.range n, if q x then 1 else 0 := by
  intro n
  induction n with
  | zero => simp
  | succ n ih =>
    rw [List.range_succ, List.countP_append, Finset.sum_range_succ, ih]
    simp [List.countP_cons]

theorem countP_pixPairs (f : ℕ × ℕ → Bool) {W : ℕ} :
    ∀ H : ℕ, (pixPairs H W).countP f
      = ∑ y ∈ Finset.range H, ∑ x ∈ Finset.range W, if f (y, x) then 1 else 0 := by
  intro H
  induction H with
  | zero => simp [pixPairs]
  | succ H ih =>
    have hsplit : pixPairs (H + 1) W
        = pixPairs H W ++ ((List.range W).map fun x => (H, x)) := by
      unfold pixPairs
      rw [List.range_succ, List.flatMap_append]
      simp
    rw [hsplit, List.countP_append, Finset.sum_range_succ, ih,
      List.countP_map, countP_range]
    simp [Function.comp]

/-- Counting over one frame as a `Finset` cardinality over the pixel grid. -/
theorem countP_pixPairs_card (f : ℕ × ℕ → Bool) (H W : ℕ) :
    (pixPairs H W).countP f
      = ((Finset.range H ×ˢ Finset.range W).filter fun p => f p = true).card := by
  rw [countP_pixPairs, Finset.card_filter, Finset.sum_product]

/-- Every nonzero label of magnitude at most `steps` is hit by exactly one
bin of the `all_steps` vector. -/
theorem sum_indicator_bins {steps : ℕ} {v : ℤ} (hv : v ≠ 0) (hb : v.natAbs ≤ steps) :
    (∑ b ∈ Finset.range (2 * steps), if v = allSteps steps b then (1 : ℕ) else 0) = 1 := by
  by_cases hv0 : 0 ≤ v
  · refine Finset.sum_eq_single_of_mem (steps - v.natAbs) (Finset.mem_range.mpr (by omega)) ?_
      |>.trans (if_pos ?_)
    · intro b hbr hne
      rw [Finset.mem_range] at hbr
      rcases lt_or_ge b steps with hlo | hhi
      · rw [allSteps_lo hlo, if_neg]
        intro heq
        exact hne (by omega)
      · rw [allSteps_hi hhi hbr, if_neg]
        intro heq
        omega
    · rw [allSteps_lo (by omega)]
      omega
  · refine Finset.sum_eq_single_of_mem (steps + v.natAbs - 1) (Finset.mem_range.mpr (by omega)) ?_
      |>.trans (if_pos ?_)
    · intro b hbr hne
      rw [Finset.mem_range] at hbr
      rcases lt_or_ge b steps with hlo | hhi
      · rw [allSteps_lo hlo, if_neg]
        intro heq
        omega
      · rw [allSteps_hi hhi hbr, if_neg]
        intro heq
        exact hne (by omega)
    · rw [allSteps_hi (by omega) (by omega)]
      omega

/-- Summing the per-bin counts over all `2*steps` bins counts each pixel
whose label is nonzero of magnitude at most `steps` exactly once. -/
theorem sum_countP_bins (steps : ℕ) (f : ℕ × ℕ → Bool) (g : ℕ × ℕ → ℤ) :
    ∀ L : List (ℕ × ℕ),
      (∀ p ∈ L, f p = true → g p ≠ 0 ∧ (g p).natAbs ≤ steps) →
      (∑ b ∈ Finset.range (2 * steps),
        L.countP fun p => f p && decide (g p = allSteps steps b)) = L.countP f := by
  intro L
  induction L with
  | nil => simp
  | cons p L ih =>
    intro h
    have htail := fun q hq => h q (List.mem_cons_of_mem p hq)
    simp only [List.countP_cons, Finset.sum_add_distrib, ih htail]
    by_cases hf : f p = true
    · have hone := sum_indicator_bins (h p (List.mem_cons_self p L) hf).1
        (h p (List.mem_cons_self p L) hf).2
      simp only [hf, Bool.true_and, decide_eq_true_eq, if_pos]
      rw [hone]
    · simp [hf, Bool.false_and]

/-- The mutable arrays in scope during `compute_pvg`: the caller-supplied
segmentation stack `s` and label stack `labels`, and the locally allocated
`pvg` matrix, boolean scratch stack `lbuf` (`l` in the source) and bin
vector `allS` (`all_steps`).  Each NumPy statement of the function body is
modelled as a state update that writes exactly the array the statement
writes. -/
structure PvgState where
  s : ℕ → ℕ → ℕ → Bool
  labels : ℕ → ℕ → ℕ → ℤ
  pvg : ℕ × ℕ → ℕ
  lbuf : ℕ → ℕ → ℕ → Bool
  allS : ℕ → ℤ

/-- State after the allocations `pvg = np.zeros(...)`, `l = np.zeros(...)`
and `all_steps = np.arange(1, steps*2+1)`: all three are freshly allocated,
distinct from the inputs. -/
def pvgInit (s : ℕ → ℕ → ℕ → Bool) (labels : ℕ → ℕ → ℕ → ℤ) : PvgState :=
  ⟨s, labels, fun _ => 0, fun _ _ _ => false, fun b => (b : ℤ) + 1⟩

/-- `all_steps[:steps] = all_steps[:steps][::-1]` (in-place slice write;
the right-hand side is read before the write). -/
def stepRevPos (steps : ℕ) (st : PvgState) : PvgState :=
  { st with allS := fun b => if b < steps then st.allS (steps - 1 - b) else st.allS b }

/-- `all_steps[steps:] = -(all_steps[steps:] - steps)`. -/
def stepNegHigh (steps : ℕ) (st : PvgState) : PvgState :=
  { st with allS := fun b =>
      if steps ≤ b ∧ b < 2 * steps then -(st.allS b - (steps : ℤ)) else st.allS b }

/-- `l[i] = labels[frame] == j` with `j = all_steps[i]`: overwrites plane `i`
of the scratch stack. -/
def stepSetL (frame i : ℕ) (st : PvgState) : PvgState :=
  { st with lbuf := fun i' y x =>
      if i' = i then decide (st.labels frame y x = st.allS i) else st.lbuf i' y x }

/-- `pvg[frame, i] = (f & l[i]).sum()` with `f = s[frame]` (a read-only view
of the segmentation stack). -/
def stepSetPvg (H W frame i : ℕ) (st : PvgState) : PvgState :=
  { st with pvg := (Function.update st.pvg (frame, i)
      ((pixPairs H W).countP fun p => st.s frame p.1 p.2 && st.lbuf i p.1 p.2)) }

/-- The full statement sequence of `compute_pvg`: the two slice writes to
`all_steps`, then per frame the `l`-filling loop followed by the
`pvg`-filling loop. -/
def runPvg (T H W steps : ℕ) (st : PvgState) : PvgState :=
  (List.range T).foldl
    (fun st frame =>
      (List.range (2 * steps)).foldl (fun st i => stepSetPvg H W frame i st)
        ((List.range (2 * steps)).foldl (fun st i => stepSetL frame i st) st))
    (stepNegHigh steps (stepRevPos steps st))

theorem foldl_preserves {σ β : Type} (P : σ → Prop) (f : σ → β → σ)
    (hf : ∀ st i, P st → P (f st i)) :
    ∀ (l : List β) (st : σ), P st → P (l.foldl f st) := by
  intro l
  induction l with
  | nil => intro st h; exact h
  | cons a l ih => intro st h; exact ih _ (hf st a h)

/-- No statement of `compute_pvg` writes the caller's segmentation stack or
label stack. -/
theorem runPvg_preserves_inputs (T H W steps : ℕ) (st : PvgState) :
    (runPvg T H W steps st).s = st.s ∧ (runPvg T H W steps st).labels = st.labels := by
  unfold runPvg
  refine foldl_preserves (fun st' : PvgState => st'.s = st.s ∧ st'.labels = st.labels) _ ?_ _ _ ?_
  · intro st' frame hp
    refine foldl_preserves (fun st' : PvgState => st'.s = st.s ∧ st'.labels = st.labels) _ ?_ _ _ ?_
    · intro st'' i hp'
      exact ⟨hp'.1, hp'.2⟩
    · refine foldl_preserves (fun st' : PvgState => st'.s = st.s ∧ st'.labels = st.labels) _ ?_ _ _ hp
      intro st'' i hp'
      exact ⟨hp'.1, hp'.2⟩
  · exact ⟨rfl, rfl⟩

/-- The arrays in scope during `_find_parts`: the two read-only distance
rasters and the freshly allocated `int8` output. -/
structure PartsState (α : Type) where
  par : ℕ → ℕ → ℕ → α
  lr : ℕ → ℕ → α
  out : ℕ × ℕ → ℤ

/-- `labels[i, j] = sign * (closest_to + 1)`: one store into the output. -/
def stepSetPart {α : Type} [LinearOrderedRing α] (K y x : ℕ) (st : PartsState α) :
    PartsState α :=
  { st with out := (Function.update st.out (y, x)
      (wrap8 ((if 0 ≤ st.lr y x then 1 else -1)
        * ((argminAbs (fun k => st.par k y x) K : ℤ) + 1)))) }

/-- The write loop of `_find_parts` over the pixel grid. -/
def runParts {α : Type} [LinearOrderedRing α] (H W K : ℕ) (st : PartsState α) :
    PartsState α :=
  (pixPairs H W).foldl (fun st p => stepSetPart K p.1 p.2 st) st

/-- No statement of the `_find_parts` loop writes its input rasters. -/
theorem runParts_preserves_inputs {α : Type} [LinearOrderedRing α]
    (H W K : ℕ) (st : PartsState α) :
    (runParts H W K st).par = st.par ∧ (runParts H W K st).lr = st.lr := by
  unfold runParts
  refine foldl_preserves (fun st' : PartsState α => st'.par = st.par ∧ st'.lr = st.lr) _ ?_ _ _ ⟨rfl, rfl⟩
  intro st' p hp
  exact ⟨hp.1, hp.2⟩

/-- C6: for every image shape `(H, W)`, slope `c` and intercept array `i`,
`_create_maps` returns a stack with one 2D array per intercept in which cell
`(k, y, x)` equals `y - (c * x + i[k])` (signed vertical distance), for every
intercept index `k` and pixel `(y, x)` of the grid. -/
theorem C6_distance_maps {α : Type} [LinearOrderedRing α] (K H W : ℕ) (c : α)
    (i : ℕ → α) (k y x : ℕ) (hk : k < K) (hy : y < H) (hx : x < W) :
    createMaps K H W c i k y x = (y : α) - (c * (x : α) + i k) :=
  createMaps_apply c i hk hy hx

theorem C6_distance_maps_witness :
    (0 < 1 ∧ 1 < 2 ∧ 1 < 2) ∧
    createMaps 1 2 2 (3 : ℤ) (fun _ => 5) 0 1 1 = (1 : ℤ) - (3 * 1 + 5) :=
  ⟨⟨by decide, by decide, by decide⟩,
    (by simpa using C6_distance_maps 1 2 2 (3 : ℤ) (fun _ => 5) 0 1 1
          (by decide) (by decide) (by decide))⟩

/-- C4: bins `0 ≤ b < steps` carry the descending positive labels
`steps, steps-1, …, 1` (bin 0 is the farthest positive label), bins
`steps ≤ b < 2*steps` carry `-1, -2, …, -steps`, and entry `(t, b)` of the
PVG matrix counts the pixels whose frame-`t` segmentation bit is set and
whose frame-`t` label equals the bin's label. -/
theorem C4_bin_mapping (T H W steps : ℕ) (s : ℕ → ℕ → ℕ → Bool)
    (labels : ℕ → ℕ → ℕ → ℤ) (t b : ℕ) (ht : t < T) (hb : b < 2 * steps) :
    (b < steps → allSteps steps b = (steps : ℤ) - (b : ℤ)) ∧
    (steps ≤ b → allSteps steps b = -((b : ℤ) - (steps : ℤ) + 1)) ∧
    computePvg T H W steps s labels t b
      = ((Finset.range H ×ˢ Finset.range W).filter
          (fun p => s t p.1 p.2 = true ∧ labels t p.1 p.2 = allSteps steps b)).card := by
  refine ⟨fun h => allSteps_lo h, fun h => allSteps_hi h hb, ?_⟩
  unfold computePvg
  rw [if_pos ⟨ht, hb⟩, countP_pixPairs_card]
  congr 1
  apply Finset.filter_congr
  intro p _
  simp [Bool.and_eq_true, decide_eq_true_eq]

theorem C4_bin_mapping_witness :
    (0 < 1 ∧ 0 < 2 * 1) ∧
    ((0 < 1 → allSteps 1 0 = (1 : ℤ) - 0) ∧
     (1 ≤ 0 → allSteps 1 0 = -((0 : ℤ) - 1 + 1)) ∧
     computePvg 1 1 1 1 (fun _ _ _ => true) (fun _ _ _ => 1) 0 0
       = ((Finset.range 1 ×ˢ Finset.range 1).filter
           (fun p => (fun _ _ _ => true : ℕ → ℕ → ℕ → Bool) 0 p.1 p.2 = true ∧
             (fun _ _ _ => (1 : ℤ) : ℕ → ℕ → ℕ → ℤ) 0 p.1 p.2 = allSteps 1 0)).card) :=
  ⟨⟨by decide, by decide⟩,
    (by simpa using C4_bin_mapping 1 1 1 1 (fun _ _ _ => true) (fun _ _ _ => 1) 0 0
          (by decide) (by decide))⟩

/-- C8: a frame whose segmentation mask is entirely false is not an error:
`compute_pvg` is total and row `t` of the PVG matrix is all zeros. -/
theorem C8_empty_mask_zero_row (T H W steps : ℕ) (s : ℕ → ℕ → ℕ → Bool)
    (labels : ℕ → ℕ → ℕ → ℤ) (t : ℕ)
    (hempty : ∀ y x, y < H → x < W → s t y x = false) (b : ℕ) :
    computePvg T H W steps s labels t b = 0 := by
  unfold computePvg
  split
  · apply List.countP_eq_zero.mpr
    intro p hp
    have hb := mem_pixPairs.mp hp
    simp [hempty p.1 p.2 hb.1 hb.2]
  · rfl

theorem C8_empty_mask_zero_row_witness :
    (∀ y x : ℕ, y < 1 → x < 1 → (fun _ _ _ => false : ℕ → ℕ → ℕ → Bool) 0 y x = false) ∧
    computePvg 1 1 1 1 (fun _ _ _ => false) (fun _ _ _ => 1) 0 0 = 0 :=
  ⟨fun _ _ _ _ => rfl,
    C8_empty_mask_zero_row 1 1 1 1 (fun _ _ _ => false) (fun _ _ _ => 1) 0
      (fun _ _ _ _ => rfl) 0⟩

/-- C9: no stage mutates its caller-supplied arrays.  Every write statement
of `compute_pvg` targets the locally allocated `pvg`, `l` or `all_steps`
arrays (`runPvg` leaves the `s` and `labels` fields of the state exactly as
they were), and every write of the `_find_parts` loop targets the freshly
allocated `int8` output (`runParts` leaves both input rasters unchanged);
the returned arrays (`pvg` and the label map) are the locally allocated
ones.  `get_labels` itself only reads its scalar axis parameters. -/
theorem C9_no_input_mutation {α : Type} [LinearOrderedRing α]
    (T H W steps K : ℕ) (st : PvgState) (pst : PartsState α) :
    ((runPvg T H W steps st).s = st.s ∧ (runPvg T H W steps st).labels = st.labels) ∧
    ((runParts H W K pst).par = pst.par ∧ (runParts H W K pst).lr = pst.lr) :=
  ⟨runPvg_preserves_inputs T H W steps st, runParts_preserves_inputs H W K pst⟩

/-- C3 (amended): per pixel, `closest` is the index minimizing the absolute
orthogonal distance with ties broken toward the smallest index, the sign is
`+1` iff the main-axis map is `≥ 0`, and the assigned label is
`sign * (closest + 1)` reduced into `int8`; it equals `sign * (closest + 1)`
exactly whenever `steps ≤ 127`. -/
theorem C3_classifier_rule {α : Type} [LinearOrderedRing α] (H W K : ℕ)
    (par : ℕ → ℕ → ℕ → α) (lr : ℕ → ℕ → α) (y x : ℕ)
    (hK : 0 < K) (hy : y < H) (hx : x < W) :
    IsFirstArgminAbs (fun k => par k y x) K (argminAbs (fun k => par k y x) K) ∧
    labelAt (findParts H W K par lr) y x
      = some (wrap8 ((if 0 ≤ lr y x then 1 else -1)
          * ((argminAbs (fun k => par k y x) K : ℤ) + 1))) ∧
    (K ≤ 127 →
      labelAt (findParts H W K par lr) y x
        = some ((if 0 ≤ lr y x then 1 else -1)
            * ((argminAbs (fun k => par k y x) K : ℤ) + 1))) := by
  refine ⟨argminAbs_spec _ K hK, labelAt_findParts par lr hK hy hx, ?_⟩
  intro h127
  rw [labelAt_findParts par lr hK hy hx]
  have hc : argminAbs (fun k => par k y x) K < K := argminAbs_lt _ hK
  by_cases hs : 0 ≤ lr y x
  · rw [if_pos hs, wrap8_small (by omega) (by omega)]
  · rw [if_neg hs, wrap8_small (by omega) (by omega)]

def parW3 : ℕ → ℕ → ℕ → ℤ := fun k _ _ => (k : ℤ)

def lrW3 : ℕ → ℕ → ℤ := fun _ _ => -1

theorem C3_classifier_rule_witness :
    (0 < 2 ∧ 0 < 1 ∧ 0 < 1) ∧
    (IsFirstArgminAbs (fun k => parW3 k 0 0) 2 (argminAbs (fun k => parW3 k 0 0) 2) ∧
     labelAt (findParts 1 1 2 parW3 lrW3) 0 0
       = some (wrap8 ((if (0 : ℤ) ≤ lrW3 0 0 then 1 else -1)
           * ((argminAbs (fun k => parW3 k 0 0) 2 : ℤ) + 1))) ∧
     (2 ≤ 127 →
       labelAt (findParts 1 1 2 parW3 lrW3) 0 0
         = some ((if (0 : ℤ) ≤ lrW3 0 0 then 1 else -1)
             * ((argminAbs (fun k => parW3 k 0 0) 2 : ℤ) + 1)))) :=
  ⟨⟨by decide, by decide, by decide⟩,
    C3_classifier_rule 1 1 2 parW3 lrW3 0 0 (by decide) (by decide) (by decide)⟩

/-- On a column whose absolute distances strictly decrease with the sample
index (values `c, c-1, …, 0` for `c = K-1`), the first argmin is the last
index `K - 1`. -/
theorem argminAbs_desc (c : ℤ) (K : ℕ) (hK : 0 < K) (hc : c = (K : ℤ) - 1) :
    argminAbs (fun k => c - (k : ℤ)) K = K - 1 := by
  apply argminAbs_eq_of
  have htop : ((K - 1 : ℕ) : ℤ) = (K : ℤ) - 1 := by omega
  refine ⟨by omega, ?_, ?_⟩
  · intro i hi
    simp only [htop, hc, sub_self, abs_zero]
    exact abs_nonneg _
  · intro i hi
    simp only [htop, hc, sub_self, abs_zero]
    refine abs_pos.mpr ?_
    omega

/-- A strictly decreasing 128-sample distance column: the argmin lands on
index 127, so the intended label is `+128`, which does not fit in `int8`. -/
def parDec128 : ℕ → ℕ → ℕ → ℤ := fun k _ _ => 127 - (k : ℤ)

def lrZero : ℕ → ℕ → ℤ := fun _ _ => 0

/-- C3 counterexample: with 128 orthogonal maps, the pixel at `(0, 0)` has
`closest = 127` and sign `+1`, so the claimed label would be
`sign * (closest + 1) = 128`; the assigned label is the wrapped `int8` value
`-128` instead. -/
theorem C3_classifier_rule_counterexample :
    argminAbs (fun k => parDec128 k 0 0) 128 = 127 ∧
    (0 : ℤ) ≤ lrZero 0 0 ∧
    labelAt (findParts 1 1 128 parDec128 lrZero) 0 0 = some (-128) ∧
    (-128 : ℤ) ≠ (if (0 : ℤ) ≤ lrZero 0 0 then 1 else -1) * (127 + 1) := by
  have hmin : argminAbs (fun k => parDec128 k 0 0) 128 = 127 := by
    simp only [parDec128]
    exact argminAbs_desc 127 128 (by norm_num) (by norm_num)
  refine ⟨hmin, by decide, ?_, by decide⟩
  rw [labelAt_findParts parDec128 lrZero (by norm_num) (by norm_num) (by norm_num), hmin]
  decide

/-- A strictly decreasing 130-sample distance column: the argmin lands on
index 129, the intended label is `+130`, and the stored `int8` value is
`-126` — still nonzero with magnitude in `[1, 130]`. -/
def parDec130 : ℕ → ℕ → ℕ → ℤ := fun k _ _ => 129 - (k : ℤ)

/-- With 130 orthogonal maps, the pixel at `(0, 0)` has `closest = 129`,
and the stored `int8` label is `wrap8 130 = -126`. -/
theorem labelAt_parDec130 :
    labelAt (findParts 1 1 130 parDec130 lrZero) 0 0 = some (-126) := by
  have hmin : argminAbs (fun k => parDec130 k 0 0) 130 = 129 := by
    simp only [parDec130]
    exact argminAbs_desc 129 130 (by norm_num) (by norm_num)
  rw [labelAt_findParts parDec130 lrZero (by norm_num) (by norm_num) (by norm_num), hmin]
  decide

/-- C10 (amended): the label map is stored as 8-bit signed integers, so each
assigned label equals `sign * (closest + 1)` reduced modulo `2^8` into
`[-128, 127]`; the guarantee that label magnitudes lie in `[1, steps]` holds
under the precondition `steps ≤ 255` (labels can wrap to values other than
`sign * (closest + 1)` as soon as `steps ≥ 128`, witnessed by the concrete
130-map instance, and can wrap to the incorrect value 0 only for
`steps ≥ 256`). -/
theorem C10_int8_storage {α : Type} [LinearOrderedRing α] (H W K : ℕ)
    (par : ℕ → ℕ → ℕ → α) (lr : ℕ → ℕ → α) (y x : ℕ)
    (hK : 0 < K) (hy : y < H) (hx : x < W) :
    (labelAt (findParts H W K par lr) y x
      = some (wrap8 ((if 0 ≤ lr y x then 1 else -1)
          * ((argminAbs (fun k => par k y x) K : ℤ) + 1)))) ∧
    (∀ v, labelAt (findParts H W K par lr) y x = some v → -128 ≤ v ∧ v ≤ 127) ∧
    (K ≤ 255 → ∀ v, labelAt (findParts H W K par lr) y x = some v →
      v ≠ 0 ∧ 1 ≤ v.natAbs ∧ v.natAbs ≤ K) ∧
    (labelAt (findParts 1 1 130 parDec130 lrZero) 0 0 = some (-126) ∧
      (-126 : ℤ) ≠ (130 : ℤ)) := by
  have hlab := labelAt_findParts par lr hK hy hx
  have hc : argminAbs (fun k => par k y x) K < K := argminAbs_lt _ hK
  refine ⟨hlab, ?_, ?_, labelAt_parDec130, by decide⟩
  · intro v hv
    rw [hlab] at hv
    have hv' := Option.some.inj hv
    rw [← hv']
    exact wrap8_range _
  · intro h255 v hv
    rw [hlab] at hv
    have hv' := Option.some.inj hv
    obtain ⟨hne, h1, h2⟩ := @wrap8_sign_bound (if 0 ≤ lr y x then 1 else -1)
      ((argminAbs (fun k => par k y x) K : ℤ) + 1)
      (by split
          · exact Or.inl rfl
          · exact Or.inr rfl)
      (by omega) (by omega)
    rw [← hv']
    exact ⟨hne, h1, by omega⟩

theorem C10_int8_storage_witness :
    (0 < 2 ∧ 0 < 1 ∧ 0 < 1) ∧
    ((labelAt (findParts 1 1 2 parW3 lrW3) 0 0
       = some (wrap8 ((if (0 : ℤ) ≤ lrW3 0 0 then 1 else -1)
           * ((argminAbs (fun k => parW3 k 0 0) 2 : ℤ) + 1)))) ∧
     (∀ v, labelAt (findParts 1 1 2 parW3 lrW3) 0 0 = some v → -128 ≤ v ∧ v ≤ 127) ∧
     (2 ≤ 255 → ∀ v, labelAt (findParts 1 1 2 parW3 lrW3) 0 0 = some v →
       v ≠ 0 ∧ 1 ≤ v.natAbs ∧ v.natAbs ≤ 2) ∧
     (labelAt (findParts 1 1 130 parDec130 lrZero) 0 0 = some (-126) ∧
       (-126 : ℤ) ≠ (130 : ℤ))) :=
  ⟨⟨by decide, by decide, by decide⟩,
    C10_int8_storage 1 1 2 parW3 lrW3 0 0 (by decide) (by decide) (by decide)⟩

/-- C10 counterexample: at `steps = 130 ≥ 128` the stored label `-126` has
wrapped (the intended value was `+130`) yet is still nonzero with magnitude
`126 ∈ [1, 130]`: the magnitude guarantee does not break at `steps = 128`,
so it does not hold *only* under `steps ≤ 127` (it in fact holds up to
`steps = 255`). -/
theorem C10_int8_storage_counterexample :
    labelAt (findParts 1 1 130 parDec130 lrZero) 0 0 = some (-126) ∧
    (-126 : ℤ) ≠ 0 ∧ 1 ≤ (-126 : ℤ).natAbs ∧ (-126 : ℤ).natAbs ≤ 130 :=
  ⟨labelAt_parDec130, by decide, by decide, by decide⟩

/-- C1 (amended): for every segmentation stack of booleans and every label
stack produced by the classifier with the same `steps` parameter, provided
`steps ≤ 255` (so no stored `int8` label can wrap to the unbinned value 0),
the sum over all `2*steps` bins of `compute_pvg` row `t` equals the number
of true pixels of frame `t`. -/
theorem C1_pvg_row_sum {α : Type} [LinearOrderedRing α] (T H W steps : ℕ)
    (par : ℕ → ℕ → ℕ → ℕ → α) (lr : ℕ → ℕ → ℕ → α)
    (s : ℕ → ℕ → ℕ → Bool) (lab : ℕ → ℕ → ℕ → ℤ)
    (h255 : steps ≤ 255)
    (hlab : ∀ t y x, t < T → y < H → x < W →
      labelAt (findParts H W steps (par t) (lr t)) y x = some (lab t y x))
    (t : ℕ) (ht : t < T) :
    (∑ b ∈ Finset.range (2 * steps), computePvg T H W steps s lab t b)
      = popcount H W (s t) := by
  have hsum : ∀ b ∈ Finset.range (2 * steps),
      computePvg T H W steps s lab t b
        = (pixPairs H W).countP fun p =>
            s t p.1 p.2 && decide (lab t p.1 p.2 = allSteps steps b) := by
    intro b hb
    unfold computePvg
    rw [if_pos ⟨ht, Finset.mem_range.mp hb⟩]
  rw [Finset.sum_congr rfl hsum]
  apply sum_countP_bins
  intro p hp _
  have hb := mem_pixPairs.mp hp
  have hl := hlab t p.1 p.2 ht hb.1 hb.2
  have hK : 0 < steps := by
    by_contra h0
    have hsz : steps = 0 := by omega
    subst hsz
    unfold findParts labelAt at hl
    rw [if_pos ⟨rfl, by omega, by omega⟩] at hl
    simp [Except.toOption] at hl
  rw [labelAt_findParts (par t) (lr t) hK hb.1 hb.2] at hl
  have hv := Option.some.inj hl
  have hc : argminAbs (fun k => par t k p.1 p.2) steps < steps := argminAbs_lt _ hK
  obtain ⟨hne, h1, h2⟩ := @wrap8_sign_bound (if 0 ≤ lr t p.1 p.2 then 1 else -1)
    ((argminAbs (fun k => par t k p.1 p.2) steps : ℤ) + 1)
    (by split
        · exact Or.inl rfl
        · exact Or.inr rfl)
    (by omega) (by omega)
  rw [← hv]
  exact ⟨hne, by omega⟩

def sAllTrue : ℕ → ℕ → ℕ → Bool := fun _ _ _ => true

def parOneW : ℕ → ℕ → ℕ → ℕ → ℤ := fun _ _ _ _ => 0

def lrOneW : ℕ → ℕ → ℕ → ℤ := fun _ _ _ => 0

def labOneW : ℕ → ℕ → ℕ → ℤ := fun _ _ _ => 1

theorem C1_pvg_row_sum_witness :
    (1 ≤ 255 ∧
     (∀ t y x : ℕ, t < 1 → y < 1 → x < 1 →
       labelAt (findParts 1 1 1 (parOneW t) (lrOneW t)) y x = some (labOneW t y x)) ∧
     0 < 1) ∧
    (∑ b ∈ Finset.range (2 * 1), computePvg 1 1 1 1 sAllTrue labOneW 0 b)
      = popcount 1 1 (sAllTrue 0) :=
  ⟨⟨by decide,
    fun t y x ht hy hx => by
      have ht0 : t = 0 := by omega
      have hy0 : y = 0 := by omega
      have hx0 : x = 0 := by omega
      subst ht0
      subst hy0
      subst hx0
      decide,
    by decide⟩,
   C1_pvg_row_sum 1 1 1 1 parOneW lrOneW sAllTrue labOneW (by decide)
     (fun t y x ht hy hx => by
       have ht0 : t = 0 := by omega
       have hy0 : y = 0 := by omega
       have hx0 : x = 0 := by omega
       subst ht0
       subst hy0
       subst hx0
       decide)
     0 (by decide)⟩

/-- A strictly decreasing 256-sample distance column: the argmin lands on
index 255, the intended label is `+256`, and the stored `int8` value is 0. -/
def parDec256 : ℕ → ℕ → ℕ → ℤ := fun k _ _ => 255 - (k : ℤ)

def labZero : ℕ → ℕ → ℕ → ℤ := fun _ _ _ => 0

/-- C1 counterexample: with `steps = 256` the classifier assigns the single
pixel the wrapped `int8` label 0 (first conjunct instantiates the claim's
"labels produced by the classifier" hypothesis), which matches no bin, so
the row sum is 0 while the popcount of the all-true mask is 1. -/
theorem C1_pvg_row_sum_counterexample :
    labelAt (findParts 1 1 256 parDec256 lrZero) 0 0 = some (labZero 0 0 0) ∧
    (∑ b ∈ Finset.range (2 * 256), computePvg 1 1 1 256 sAllTrue labZero 0 b) = 0 ∧
    popcount 1 1 (sAllTrue 0) = 1 ∧ (0 : ℕ) ≠ 1 := by
  have hmin : argminAbs (fun k => parDec256 k 0 0) 256 = 255 := by
    simp only [parDec256]
    exact argminAbs_desc 255 256 (by norm_num) (by norm_num)
  refine ⟨?_, ?_, by decide, by decide⟩
  · rw [labelAt_findParts parDec256 lrZero (by norm_num) (by norm_num) (by norm_num), hmin]
    decide
  · apply Finset.sum_eq_zero
    intro b hb
    have hb' := Finset.mem_range.mp hb
    unfold computePvg
    rw [if_pos ⟨by norm_num, hb'⟩]
    apply List.countP_eq_zero.mpr
    intro p hp
    simp only [sAllTrue, labZero, Bool.true_and, Bool.and_eq_true, decide_eq_true_eq,
      true_and, not_and]
    intro h0
    rcases lt_or_ge b 256 with hlo | hhi
    · rw [allSteps_lo hlo] at h0
      omega
    · rw [allSteps_hi hhi hb'] at h0
      omega

theorem linspace_zero {α : Type} [LinearOrderedField α] (a b : α) (n : ℕ) :
    linspace a b n 0 = a := by
  unfold linspace
  split
  · rfl
  · simp

theorem linspace_last {α : Type} [LinearOrderedField α] (a b : α) {n : ℕ} (h2 : 2 ≤ n) :
    linspace a b n (n - 1) = b := by
  unfold linspace
  rw [if_neg (by omega)]
  have hcast : ((n - 1 : ℕ) : α) = (n : α) - 1 := by
    rw [Nat.cast_sub (by omega)]
    norm_num
  have hne : (n : α) - 1 ≠ 0 := by
    have h2' : (2 : α) ≤ (n : α) := by exact_mod_cast h2
    intro h
    linarith
  rw [hcast]
  field_simp

theorem linspace_step {α : Type} [LinearOrderedField α] (a b : α) {n : ℕ} (k : ℕ)
    (h2 : 2 ≤ n) :
    linspace a b n (k + 1) - linspace a b n k = (b - a) / ((n : α) - 1) := by
  have hn1 : ¬n = 1 := by omega
  simp only [linspace, if_neg hn1]
  have hne : (n : α) - 1 ≠ 0 := by
    have h2' : (2 : α) ≤ (n : α) := by exact_mod_cast h2
    intro h
    linarith
  push_cast
  field_simp
  ring

/-- C5 (amended): for `steps ≥ 2`, `xs` is `steps` evenly spaced values with
`xs 0 = x_low`, `xs (steps-1) = x_high` and constant increment
`(x_high - x_low)/(steps-1)`; `ys = coef * xs + intercept` pointwise; the
single shared orthogonal slope is `tan(arctan coef - pi/2)`; and
`intercepts_orth k = ys k - coef_orth * xs k`.  For `steps = 1`, NumPy's
`linspace` returns the single sample `x_low` only — the upper endpoint
`x_high` is not included. -/
theorem C5_orthogonal_samples (x_low x_high coef intercept : ℝ) (steps k : ℕ)
    (h2 : 2 ≤ steps) (hk : k + 1 < steps) :
    (findOrthogonalPoints x_low x_high coef intercept steps).1 0 = x_low ∧
    (findOrthogonalPoints x_low x_high coef intercept steps).1 (steps - 1) = x_high ∧
    ((findOrthogonalPoints x_low x_high coef intercept steps).1 (k + 1)
      - (findOrthogonalPoints x_low x_high coef intercept steps).1 k
      = (x_high - x_low) / ((steps : ℝ) - 1)) ∧
    ((findOrthogonalPoints x_low x_high coef intercept steps).2.1 k
      = coef * (findOrthogonalPoints x_low x_high coef intercept steps).1 k + intercept) ∧
    ((findOrthogonalPoints x_low x_high coef intercept steps).2.2.1
      = Real.tan (Real.arctan coef - Real.pi / 2)) ∧
    ((findOrthogonalPoints x_low x_high coef intercept steps).2.2.2 k
      = (findOrthogonalPoints x_low x_high coef intercept steps).2.1 k
        - (findOrthogonalPoints x_low x_high coef intercept steps).2.2.1
          * (findOrthogonalPoints x_low x_high coef intercept steps).1 k) ∧
    (findOrthogonalPoints x_low x_high coef intercept 1).1 0 = x_low := by
  exact ⟨linspace_zero x_low x_high steps, linspace_last x_low x_high h2,
    linspace_step x_low x_high k h2, rfl, rfl, rfl, linspace_zero x_low x_high 1⟩

/-- C5 counterexample: at `steps = 1` with `x_low = 0`, `x_high = 1`, the
single sample is `x_low = 0`; the upper endpoint 1 is not among the samples,
so the samples are not "inclusive of both endpoints". -/
theorem C5_orthogonal_samples_counterexample :
    (findOrthogonalPoints 0 1 0 0 1).1 0 = 0 ∧ (0 : ℝ) ≠ 1 := by
  constructor
  · exact linspace_zero 0 1 1
  · norm_num

theorem C5_orthogonal_samples_witness :
    (2 ≤ 2 ∧ 0 + 1 < 2) ∧
    ((findOrthogonalPoints 0 1 0 0 2).1 0 = 0 ∧
     (findOrthogonalPoints 0 1 0 0 2).1 (2 - 1) = 1 ∧
     ((findOrthogonalPoints 0 1 0 0 2).1 (0 + 1) - (findOrthogonalPoints 0 1 0 0 2).1 0
       = (1 - 0) / (((2 : ℕ) : ℝ) - 1)) ∧
     ((findOrthogonalPoints 0 1 0 0 2).2.1 0
       = 0 * (findOrthogonalPoints 0 1 0 0 2).1 0 + 0) ∧
     ((findOrthogonalPoints 0 1 0 0 2).2.2.1
       = Real.tan (Real.arctan 0 - Real.pi / 2)) ∧
     ((findOrthogonalPoints 0 1 0 0 2).2.2.2 0
       = (findOrthogonalPoints 0 1 0 0 2).2.1 0
         - (findOrthogonalPoints 0 1 0 0 2).2.2.1 * (findOrthogonalPoints 0 1 0 0 2).1 0) ∧
     (findOrthogonalPoints 0 1 0 0 1).1 0 = 0) :=
  ⟨⟨by norm_num, by norm_num⟩,
    C5_orthogonal_samples 0 1 0 0 2 0 (by norm_num) (by norm_num)⟩

/-- C7 (amended): the only failures of `get_labels` are the generic NumPy
`ValueError`s — a negative `steps` fails fast in `np.linspace`, and
`steps = 0` on a nonempty image fails in `np.argmin` over an empty axis; no
partial label map is returned in those cases.  A degenerate axis with
`x_low = x_high` is NOT rejected: the pipeline returns a normal label map
(there is no `GeometryError` in the code). -/
theorem C7_error_behaviour (x_low x_high coef intercept : ℝ) (H W : ℕ) (steps : ℤ)
    (hH : 0 < H) (hW : 0 < W) :
    (steps < 0 →
      get_labelsE x_low x_high coef intercept H W steps
        = .error "Number of samples must be non-negative") ∧
    (get_labelsE x_low x_high coef intercept H W 0
      = .error "attempt to get argmin of an empty sequence") ∧
    (0 < steps →
      (get_labelsE x_low x_low coef intercept H W steps).toOption.isSome = true) := by
  refine ⟨?_, ?_, ?_⟩
  · intro h
    unfold get_labelsE
    rw [if_pos h]
  · unfold get_labelsE
    rw [if_neg (by norm_num)]
    unfold findParts
    rw [if_pos ⟨rfl, hH, hW⟩]
  · intro h
    unfold get_labelsE
    rw [if_neg (by omega)]
    unfold findParts
    rw [if_neg (by omega)]
    rfl

theorem C7_error_behaviour_witness :
    (0 < 1 ∧ 0 < 1 ∧ (-1 : ℤ) < 0 ∧ (0 : ℤ) < 1) ∧
    (get_labelsE 0 0 1 0 1 1 (-1) = .error "Number of samples must be non-negative") ∧
    (get_labelsE 0 0 1 0 1 1 0 = .error "attempt to get argmin of an empty sequence") ∧
    ((get_labelsE 0 0 1 0 1 1 1).toOption.isSome = true) :=
  ⟨⟨by decide, by decide, by decide, by decide⟩,
   (C7_error_behaviour 0 0 1 0 1 1 (-1) (by decide) (by decide)).1 (by decide),
   (C7_error_behaviour 0 0 1 0 1 1 7 (by decide) (by decide)).2.1,
   (C7_error_behaviour 0 0 1 0 1 1 1 (by decide) (by decide)).2.2 (by decide)⟩

/-- C7 counterexample: with `x_low = x_high = 0` (and `coef = 1`,
`intercept = 0`, a 1-by-1 image, `steps = 1`) `get_labels` does not raise:
it returns a normal label map whose pixel `(0, 0)` carries label 1. -/
theorem C7_error_behaviour_counterexample :
    labelAt (get_labelsE 0 0 1 0 1 1 1) 0 0 = some 1 := by
  unfold get_labelsE
  rw [if_neg (by norm_num)]
  simp only [Int.toNat_one]
  rw [labelAt_findParts _ _ one_pos (by norm_num) (by norm_num), argminAbs_one]
  have hlr : createMaps 1 1 1 (1 : ℝ) (fun _ => (0 : ℝ)) 0 0 0 = 0 := by
    rw [createMaps_apply _ _ (by norm_num) (by norm_num) (by norm_num)]
    norm_num
  rw [hlr, if_pos le_rfl]
  norm_num [wrap8]

/-- For `1 ≤ K ≤ 255` orthogonal maps, every in-grid pixel of the classifier
output carries a nonzero label of magnitude at most `K`. -/
theorem findParts_value_range {α : Type} [LinearOrderedRing α] {H W K : ℕ}
    (par : ℕ → ℕ → ℕ → α) (lr : ℕ → ℕ → α) {y x : ℕ} (hK : 0 < K) (h255 : K ≤ 255)
    (hy : y < H) (hx : x < W) :
    ∃ v, labelAt (findParts H W K par lr) y x = some v ∧
      v ≠ 0 ∧ 1 ≤ v.natAbs ∧ v.natAbs ≤ K := by
  rw [labelAt_findParts par lr hK hy hx]
  refine ⟨_, rfl, ?_⟩
  have hc : argminAbs (fun k => par k y x) K < K := argminAbs_lt _ hK
  obtain ⟨hne, h1, h2⟩ := @wrap8_sign_bound (if 0 ≤ lr y x then 1 else -1)
    ((argminAbs (fun k => par k y x) K : ℤ) + 1)
    (by split
        · exact Or.inl rfl
        · exact Or.inr rfl)
    (by omega) (by omega)
  exact ⟨hne, h1, by omega⟩

/-- C2 (amended): for every axis input, every pixel of the image grid, and
every `1 ≤ steps ≤ 255`, the label map returned by `get_labels` assigns the
pixel exactly one nonzero `int8` label whose magnitude lies in `[1, steps]`.
(The bound `steps ≤ 255` is needed: at `steps = 256` a label can wrap to 0,
see the counterexample.) -/
theorem C2_label_range (x_low x_high coef intercept : ℝ) (H W : ℕ) (steps : ℤ)
    (h1 : 1 ≤ steps) (h255 : steps ≤ 255) (y x : ℕ) (hy : y < H) (hx : x < W) :
    ∃ v, labelAt (get_labelsE x_low x_high coef intercept H W steps) y x = some v ∧
      v ≠ 0 ∧ 1 ≤ v.natAbs ∧ (v.natAbs : ℤ) ≤ steps := by
  unfold get_labelsE
  rw [if_neg (by omega)]
  obtain ⟨v, hv, hne, hge, hle⟩ := @findParts_value_range ℝ _ H W steps.toNat
    (createMaps steps.toNat H W
      (findOrthogonalPoints x_low x_high coef intercept steps.toNat).2.2.1
      (findOrthogonalPoints x_low x_high coef intercept steps.toNat).2.2.2)
    (fun y x => createMaps 1 H W coef (fun _ => intercept) 0 y x)
    y x (by omega) (by omega) hy hx
  exact ⟨v, hv, hne, hge, by omega⟩

theorem C2_label_range_witness :
    (1 ≤ (1 : ℤ) ∧ (1 : ℤ) ≤ 255 ∧ 0 < 1) ∧
    (∃ v, labelAt (get_labelsE 0 0 1 0 1 1 1) 0 0 = some v ∧
      v ≠ 0 ∧ 1 ≤ v.natAbs ∧ (v.natAbs : ℤ) ≤ 1) :=
  ⟨⟨by decide, by decide, by decide⟩,
   C2_label_range 0 0 1 0 1 1 1 (by decide) (by decide) 0 0 (by decide) (by decide)⟩

/-- C2 counterexample: with the AP axis `y = x - 510` sampled at
`steps = 256` points `x = 0, …, 255` on a 1-by-1 image, pixel `(0, 0)` has
`closest = 255` (the orthogonal distances `510 - 2k` strictly decrease) and
sign `+1`, so the stored `int8` label is `wrap8 256 = 0` — the pipeline
labels a pixel 0, violating the claimed nonzero-magnitude guarantee. -/
theorem C2_label_range_counterexample :
    labelAt (get_labelsE 0 255 1 (-510) 1 1 256) 0 0 = some 0 ∧
    ¬((0 : ℤ) ≠ 0 ∧ 1 ≤ (0 : ℤ).natAbs ∧ ((0 : ℤ).natAbs : ℤ) ≤ 256) := by
  refine ⟨?_, by simp⟩
  have htan : Real.tan (Real.arctan 1 - Real.pi / 2) = -1 := by
    rw [Real.arctan_one]
    have hh : Real.pi / 4 - Real.pi / 2 = -(Real.pi / 4) := by ring
    rw [hh, Real.tan_neg, Real.tan_pi_div_four]
  have hxs : ∀ k : ℕ, linspace (0 : ℝ) 255 256 k = (k : ℝ) := by
    intro k
    have hn1 : ¬(256 : ℕ) = 1 := by norm_num
    simp only [linspace, if_neg hn1]
    push_cast
    norm_num
  have hP1 : (findOrthogonalPoints 0 255 1 (-510 : ℝ) 256).2.2.1 = -1 := htan
  have hP2 : ∀ k : ℕ, (findOrthogonalPoints 0 255 1 (-510 : ℝ) 256).2.2.2 k
      = 2 * (k : ℝ) - 510 := by
    intro k
    show (1 * linspace (0 : ℝ) 255 256 k + -510)
        - Real.tan (Real.arctan 1 - Real.pi / 2) * linspace (0 : ℝ) 255 256 k
      = 2 * (k : ℝ) - 510
    rw [htan, hxs]
    ring
  have hpar : ∀ k : ℕ, k < 256 →
      createMaps 256 1 1 (findOrthogonalPoints 0 255 1 (-510 : ℝ) 256).2.2.1
        (findOrthogonalPoints 0 255 1 (-510 : ℝ) 256).2.2.2 k 0 0
      = 510 - 2 * (k : ℝ) := by
    intro k hk
    rw [createMaps_apply _ _ hk (by norm_num) (by norm_num), hP1, hP2]
    push_cast
    ring
  have hmin : argminAbs (fun k =>
      createMaps 256 1 1 (findOrthogonalPoints 0 255 1 (-510 : ℝ) 256).2.2.1
        (findOrthogonalPoints 0 255 1 (-510 : ℝ) 256).2.2.2 k 0 0) 256 = 255 := by
    apply argminAbs_eq_of
    have h0 : (510 : ℝ) - 2 * ((255 : ℕ) : ℝ) = 0 := by norm_num
    refine ⟨by norm_num, ?_, ?_⟩
    · intro i hi
      show |createMaps 256 1 1 (findOrthogonalPoints 0 255 1 (-510 : ℝ) 256).2.2.1
          (findOrthogonalPoints 0 255 1 (-510 : ℝ) 256).2.2.2 255 0 0|
        ≤ |createMaps 256 1 1 (findOrthogonalPoints 0 255 1 (-510 : ℝ) 256).2.2.1
          (findOrthogonalPoints 0 255 1 (-510 : ℝ) 256).2.2.2 i 0 0|
      rw [hpar 255 (by norm_num), h0, abs_zero]
      exact abs_nonneg _
    · intro i hi
      show |createMaps 256 1 1 (findOrthogonalPoints 0 255 1 (-510 : ℝ) 256).2.2.1
          (findOrthogonalPoints 0 255 1 (-510 : ℝ) 256).2.2.2 255 0 0|
        < |createMaps 256 1 1 (findOrthogonalPoints 0 255 1 (-510 : ℝ) 256).2.2.1
          (findOrthogonalPoints 0 255 1 (-510 : ℝ) 256).2.2.2 i 0 0|
      rw [hpar 255 (by norm_num), hpar i (by omega), h0, abs_zero]
      refine abs_pos.mpr ?_
      have hi' : (i : ℝ) ≤ 254 := by exact_mod_cast Nat.le_of_lt_succ hi
      have : (0 : ℝ) < 510 - 2 * (i : ℝ) := by linarith
      exact ne_of_gt this
  have hlr : createMaps 1 1 1 (1 : ℝ) (fun _ => (-510 : ℝ)) 0 0 0 = 510 := by
    rw [createMaps_apply _ _ (by norm_num) (by norm_num) (by norm_num)]
    norm_num
  unfold get_labelsE
  rw [if_neg (by norm_num)]
  have h256 : (256 : ℤ).toNat = 256 := rfl
  rw [h256]
  rw [labelAt_findParts _ _ (by norm_num) (by norm_num) (by norm_num)]
  rw [hmin, hlr, if_pos (by norm_num)]
  norm_num [wrap8]
